import Mathlib

/-!
Verification development for the eqemupatcher-web patch server
(`src/main.go`).  The Go program plans size-bounded chunks of files,
registers each chunk under a timestamp-derived handle, materializes a
zip archive per handle on demand, and reclaims state via a deferred
per-download cleanup and a periodic janitor sweep.

The definitions below are a shallow embedding of the relevant Go
functions; file-system facts (stat results, readability, glob matches)
are passed in as explicit oracles, and handles are modelled as lists of
characters (Go strings).
-/

namespace Patcher

/-- One entry of the planner input: a relative path together with the
size reported by `os.Stat` (Go `int64`). Mirrors the anonymous
`struct { Path string; Size int64 }` of `main.go`. -/
structure FileEntry where
  path : String
  size : Int
deriving DecidableEq, Repr

/-- Total size of a chunk, `Σ size`. -/
def chunkSum (c : List FileEntry) : Int :=
  (c.map (·.size)).sum

/-- Two's-complement wrap-around of a Go `int64` arithmetic result:
the mathematical value reduced modulo `2^64` into `[-2^63, 2^63)`.
Go defines signed overflow as this wrap. -/
def wrap64 (x : Int) : Int :=
  (x + 2 ^ 63) % 2 ^ 64 - 2 ^ 63

/-- The loop body of `chunkBySize` (main.go lines 352-363), with the
accumulated `chunks`, the `current` chunk and `currentSize` made
explicit.  The guard `currentSize+f.Size > maxSize` and the running sum
`currentSize += f.Size` are `int64` additions, so both pass through
`wrap64`.  When appending the next file would exceed `maxSize` and the
current chunk is non-empty, the current chunk is flushed and the file
starts a fresh chunk (`currentSize = 0` then `+= f.Size`, i.e.
`wrap64 f.size`); at the end a non-empty current chunk is flushed. -/
def chunkLoop (maxSize : Int) :
    List FileEntry → List (List FileEntry) → List FileEntry → Int →
      List (List FileEntry)
  | [], chunks, current, _ =>
      if current.length > 0 then chunks ++ [current] else chunks
  | f :: fs, chunks, current, currentSize =>
      if wrap64 (currentSize + f.size) > maxSize ∧ current.length > 0 then
        chunkLoop maxSize fs (chunks ++ [current]) [f] (wrap64 f.size)
      else
        chunkLoop maxSize fs chunks (current ++ [f])
          (wrap64 (currentSize + f.size))

/-- `chunkBySize` from main.go: greedy partition of `files` (in order)
into chunks whose cumulative size stays within `maxSize`, except that a
single file larger than `maxSize` forms its own singleton chunk. -/
def chunkBySize (files : List FileEntry) (maxSize : Int) :
    List (List FileEntry) :=
  chunkLoop maxSize files [] [] 0

/-- Result of `os.Stat` for a path that exists: its size and whether it
is a directory. -/
structure StatInfo where
  size : Int
  isDir : Bool
deriving DecidableEq, Repr

/-- The filtering loop of the `POST /zip-chunks/init` handler
(main.go lines 123-133): stat every requested path, silently dropping
paths that are missing (`stat = none`) or directories. -/
def expandFiles (stat : String → Option StatInfo) (files : List String) :
    List FileEntry :=
  files.filterMap fun f =>
    match stat f with
    | none => none
    | some info => if info.isDir then none else some ⟨f, info.size⟩

/-- Property every produced chunk must satisfy: within budget, or a
forced oversized singleton. -/
def ChunkOk (maxSize : Int) (c : List FileEntry) : Prop :=
  chunkSum c ≤ maxSize ∨ ∃ f, c = [f] ∧ maxSize < f.size

theorem chunkLoop_flatten (maxSize : Int) (fs : List FileEntry)
    (chunks : List (List FileEntry)) (current : List FileEntry)
    (currentSize : Int) :
    (chunkLoop maxSize fs chunks current currentSize).flatten =
      chunks.flatten ++ current ++ fs := by
  induction fs generalizing chunks current currentSize with
  | nil =>
      simp only [chunkLoop]
      by_cases h : current.length > 0
      · simp [h]
      · have : current = [] := List.length_eq_zero.mp (Nat.eq_zero_of_not_pos h)
        simp [h, this]
  | cons f fs ih =>
      simp only [chunkLoop]
      by_cases h : wrap64 (currentSize + f.size) > maxSize ∧ current.length > 0
      · simp [h, ih]
      · simp [h, ih]

theorem flush_ok (maxSize : Int) (current : List FileEntry)
    (hne : 0 < current.length)
    (hcur : current.length ≤ 1 ∨ chunkSum current ≤ maxSize) :
    ChunkOk maxSize current := by
  rcases hcur with hlen | hle
  · rcases current with _ | ⟨f, _ | ⟨g, rest⟩⟩
    · simp at hne
    · by_cases hover : maxSize < f.size
      · exact Or.inr ⟨f, rfl, hover⟩
      · exact Or.inl (by simpa [chunkSum] using le_of_not_lt hover)
    · simp at hlen
  · exact Or.inl hle

theorem wrap64_eq_self (x : Int) (hlo : -(2 ^ 63) ≤ x) (hhi : x < 2 ^ 63) :
    wrap64 x = x := by
  unfold wrap64
  have h := Int.emod_eq_of_lt (a := x + 2 ^ 63) (b := 2 ^ 64) (by omega) (by omega)
  omega

theorem chunkSum_nonneg (l : List FileEntry)
    (h : ∀ f ∈ l, 0 ≤ f.size) : 0 ≤ chunkSum l := by
  unfold chunkSum
  refine List.sum_nonneg ?_
  intro x hx
  obtain ⟨f, hf, rfl⟩ := List.mem_map.mp hx
  exact h f hf

theorem chunkSum_cons (f : FileEntry) (l : List FileEntry) :
    chunkSum (f :: l) = f.size + chunkSum l := by
  simp [chunkSum]

/-- Loop invariant of the packer when no `int64` addition overflows:
with non-negative sizes and `currentSize` plus the remaining total
below `2^63`, every wrapped sum equals the exact sum, and every emitted
chunk is within budget or an oversized singleton. -/
theorem chunkLoop_ok (maxSize : Int) (fs : List FileEntry)
    (chunks : List (List FileEntry)) (current : List FileEntry)
    (currentSize : Int)
    (hacc : ∀ c ∈ chunks, ChunkOk maxSize c)
    (hsum : currentSize = chunkSum current)
    (hcur : current.length ≤ 1 ∨ currentSize ≤ maxSize)
    (hnn : ∀ f ∈ fs, 0 ≤ f.size)
    (hcs : 0 ≤ currentSize)
    (hbound : currentSize + chunkSum fs < 2 ^ 63) :
    ∀ c ∈ chunkLoop maxSize fs chunks current currentSize,
      ChunkOk maxSize c := by
  induction fs generalizing chunks current currentSize with
  | nil =>
      intro c hc
      simp only [chunkLoop] at hc
      by_cases h : current.length > 0
      · simp only [if_pos h, List.mem_append, List.mem_singleton] at hc
        rcases hc with hc | hc
        · exact hacc c hc
        · exact hc ▸ flush_ok maxSize current h (hsum ▸ hcur)
      · rw [if_neg h] at hc
        exact hacc c hc
  | cons f fs ih =>
      intro c hc
      have hfnn : 0 ≤ f.size := hnn f (List.mem_cons_self f fs)
      have htln : ∀ g ∈ fs, 0 ≤ g.size :=
        fun g hg => hnn g (List.mem_cons_of_mem f hg)
      have hrest : 0 ≤ chunkSum fs := chunkSum_nonneg fs htln
      have hconss : chunkSum (f :: fs) = f.size + chunkSum fs :=
        chunkSum_cons f fs
      have hS : wrap64 (currentSize + f.size) = currentSize + f.size := by
        refine wrap64_eq_self _ (by omega) (by omega)
      have hf1 : wrap64 f.size = f.size := by
        refine wrap64_eq_self _ (by omega) (by omega)
      simp only [chunkLoop, hS] at hc
      by_cases h : currentSize + f.size > maxSize ∧ current.length > 0
      · rw [if_pos h] at hc
        refine ih (chunks ++ [current]) [f] (wrap64 f.size) ?_
          (by simp [chunkSum, hf1]) (Or.inl (by simp)) htln
          (by omega) (by rw [hf1]; omega) c hc
        intro d hd
        rcases List.mem_append.mp hd with hd | hd
        · exact hacc d hd
        · rcases List.mem_singleton.mp hd with rfl
          exact flush_ok maxSize d h.2 (hsum ▸ hcur)
      · rw [if_neg h] at hc
        rcases not_and_or.mp h with hle | hempty
        · refine ih chunks (current ++ [f]) (currentSize + f.size) hacc ?_
            (Or.inr (le_of_not_lt hle)) htln (by omega) (by omega) c hc
          simp [chunkSum, hsum]
        · have hnil : current = [] := List.length_eq_zero.mp (Nat.eq_zero_of_not_pos hempty)
          subst hnil
          refine ih chunks [f] (currentSize + f.size) hacc ?_
            (Or.inl (by simp)) htln (by omega) (by omega) c hc
          have h0 : currentSize = 0 := by simpa [chunkSum] using hsum
          simp [chunkSum, h0]

/-- Every chunk produced by `chunkBySize` is within the budget or an
oversized singleton, provided the sizes are non-negative and their
total stays below `2^63` (no `int64` overflow in the running sum). -/
theorem chunkBySize_ok (files : List FileEntry) (maxSize : Int)
    (hnn : ∀ f ∈ files, 0 ≤ f.size)
    (htot : chunkSum files < 2 ^ 63) :
    ∀ c ∈ chunkBySize files maxSize, ChunkOk maxSize c :=
  chunkLoop_ok maxSize files [] [] 0 (by simp) (by simp [chunkSum])
    (Or.inl (by simp)) hnn le_rfl (by omega)

/-- C2 core: concatenating the chunks gives back the input list. -/
theorem chunkBySize_flatten (files : List FileEntry) (maxSize : Int) :
    (chunkBySize files maxSize).flatten = files := by
  simpa using chunkLoop_flatten maxSize files [] [] 0

/-- The character for decimal digit `d`. -/
def digitChar (d : Nat) : Char :=
  Char.ofNat (48 + d)

/-- Decimal rendering of a non-negative integer, most significant digit
first: the embedding of Go's `strconv.FormatInt(n, 10)` /
`strconv.Itoa(n)` for non-negative `n` (the only values the program
formats: `time.Now().UnixNano()` and a slice index).  Strings are
modelled as lists of characters. -/
def formatNat (n : Nat) : List Char :=
  if n = 0 then ['0'] else ((Nat.digits 10 n).reverse.map digitChar)

/-- Numeric value of a digit character. -/
def charVal (c : Char) : Nat :=
  c.toNat - 48

/-- Is `c` a decimal digit? -/
def isDigitCh (c : Char) : Bool :=
  decide (48 ≤ c.toNat ∧ c.toNat ≤ 57)

/-- Value of a big-endian digit string. -/
def digitsVal (cs : List Char) : Nat :=
  cs.foldl (fun a c => 10 * a + charVal c) 0

/-- The embedding of Go's `strconv.ParseInt(s, 10, 64)` restricted to
sign-free inputs (the program only ever parses the digit prefix of a
handle): succeeds exactly on non-empty all-digit strings whose value
fits in an `int64`. -/
def parseInt64 (cs : List Char) : Option Nat :=
  if cs ≠ [] ∧ cs.all isDigitCh ∧ digitsVal cs < 2 ^ 63 then
    some (digitsVal cs)
  else none

/-- `chunkKey ts i` is the registry key stored by the init handler
(main.go line 146): `chunkID + "-" + strconv.Itoa(i)` with
`chunkID = strconv.FormatInt(ts, 10)`. -/
def chunkKey (ts i : Nat) : List Char :=
  formatNat ts ++ '-' :: formatNat i

/-- The janitor's timestamp extraction
`chunkKey[:strings.Index(chunkKey, "-")]` (main.go line 254).
`strings.Index` returns `-1` when `'-'` is absent, in which case the Go
slice expression panics; that case is modelled as `none`. -/
def tsPart (key : List Char) : Option (List Char) :=
  if '-' ∈ key then some (key.takeWhile (fun c => c ≠ '-')) else none

theorem digitChar_toNat (d : Nat) (h : d < 10) :
    (digitChar d).toNat = 48 + d := by
  interval_cases d <;> decide

theorem digitChar_isDigit (d : Nat) (h : d < 10) :
    isDigitCh (digitChar d) = true := by
  interval_cases d <;> decide

theorem formatNat_ne_nil (n : Nat) : formatNat n ≠ [] := by
  unfold formatNat
  by_cases h : n = 0
  · simp [h]
  · simp [h, Nat.digits_ne_nil_iff_ne_zero.mpr h]

theorem formatNat_all_digits (n : Nat) :
    ∀ c ∈ formatNat n, isDigitCh c = true := by
  intro c hc
  unfold formatNat at hc
  by_cases h : n = 0
  · simp [h] at hc
    cases hc
    decide
  · simp [h] at hc
    rcases hc with ⟨d, hd, rfl⟩
    exact digitChar_isDigit d (Nat.digits_lt_base (by omega) hd)

theorem digit_ne_dash (c : Char) (h : isDigitCh c = true) : c ≠ '-' := by
  intro he
  cases he
  simp [isDigitCh] at h

theorem formatNat_not_dash (n : Nat) : '-' ∉ formatNat n := by
  intro h
  exact digit_ne_dash '-' (formatNat_all_digits n '-' h) rfl

theorem digitsVal_append_singleton (cs : List Char) (c : Char) :
    digitsVal (cs ++ [c]) = 10 * digitsVal cs + charVal c := by
  simp [digitsVal, List.foldl_append]

theorem digitsVal_formatNat (n : Nat) : digitsVal (formatNat n) = n := by
  unfold formatNat
  by_cases h : n = 0
  · simp [h, digitsVal, charVal]
  · rw [if_neg h]
    have key : ∀ ds : List Nat, (∀ d ∈ ds, d < 10) →
        digitsVal (ds.reverse.map digitChar) = Nat.ofDigits 10 ds := by
      intro ds
      induction ds with
      | nil => intro _; simp [digitsVal, Nat.ofDigits]
      | cons d rest ih =>
          intro hlt
          have : (d :: rest).reverse.map digitChar =
              rest.reverse.map digitChar ++ [digitChar d] := by
            simp
          rw [this, digitsVal_append_singleton,
            ih (fun e he => hlt e (List.mem_cons_of_mem d he)),
            Nat.ofDigits_cons]
          have hd : d < 10 := hlt d (List.mem_cons_self d rest)
          simp [charVal, digitChar_toNat d hd]
          ring
    rw [key (Nat.digits 10 n) (fun d hd => Nat.digits_lt_base (by omega) hd),
      Nat.ofDigits_digits]

theorem formatNat_injective (a b : Nat) (h : formatNat a = formatNat b) :
    a = b := by
  have := digitsVal_formatNat a
  rw [h, digitsVal_formatNat b] at this
  omega

theorem takeWhile_append_of_all {p : Char → Bool} (xs ys : List Char)
    (y : Char) (hxs : ∀ x ∈ xs, p x = true) (hy : p y = false) :
    List.takeWhile p (xs ++ y :: ys) = xs := by
  induction xs with
  | nil => simp [List.takeWhile, hy]
  | cons x rest ih =>
      have hx : p x = true := hxs x (List.mem_cons_self x rest)
      have ih' := ih fun z hz => hxs z (List.mem_cons_of_mem x hz)
      simp only [List.cons_append, List.takeWhile_cons, hx, if_true, List.append_eq]
      rw [ih']

theorem tsPart_chunkKey (ts i : Nat) :
    tsPart (chunkKey ts i) = some (formatNat ts) := by
  unfold tsPart chunkKey
  rw [if_pos (by simp)]
  congr 1
  refine takeWhile_append_of_all (formatNat ts) (formatNat i) '-' ?_ (by simp)
  intro x hx
  simpa using digit_ne_dash x (formatNat_all_digits ts x hx)

theorem parseInt64_formatNat (ts : Nat) (h : ts < 2 ^ 63) :
    parseInt64 (formatNat ts) = some ts := by
  unfold parseInt64
  rw [if_pos, digitsVal_formatNat]
  refine ⟨formatNat_ne_nil ts, ?_, ?_⟩
  · exact List.all_eq_true.mpr (formatNat_all_digits ts)
  · rw [digitsVal_formatNat]; exact h

theorem chunkKey_inj (ts i ts' i' : Nat)
    (h : chunkKey ts i = chunkKey ts' i') : ts = ts' ∧ i = i' := by
  have hts : formatNat ts = formatNat ts' := by
    have h1 := tsPart_chunkKey ts i
    have h2 := tsPart_chunkKey ts' i'
    rw [h] at h1
    exact Option.some_injective _ (h1.symm.trans h2)
  constructor
  · exact formatNat_injective _ _ hts
  · unfold chunkKey at h
    rw [hts] at h
    have := List.append_cancel_left h
    exact formatNat_injective _ _ (List.cons_injective this)

/-! ### Registry (`chunkStore`) and handle registration -/

/-- Lookup in an association list; the embedding of a Go map read
(`files, ok := chunkStore[chunkID]`).  The registry map is modelled as
an association list whose keys are unique in every reachable state. -/
def alistFind {α β : Type} [DecidableEq α] : List (α × β) → α → Option β
  | [], _ => none
  | e :: rest, k => if e.1 = k then some e.2 else alistFind rest k

/-- Deletion from an association list; the embedding of Go's
`delete(m, k)`, which is a no-op when the key is absent. -/
def alistErase {α β : Type} [DecidableEq α] (l : List (α × β)) (k : α) :
    List (α × β) :=
  l.filter fun e => decide (e.1 ≠ k)

/-- The registration loop of the init handler (main.go lines 140-148):
every chunk of one planning call is stored under
`chunkID + "-" + strconv.Itoa(i)` where `chunkID` is the decimal
rendering of one `time.Now().UnixNano()` reading `ts`. -/
def registerChunks (ts : Nat) (chunks : List (List FileEntry)) :
    List (List Char × List String) :=
  ((List.range chunks.length).zip chunks).map fun p =>
    (chunkKey ts p.1, p.2.map FileEntry.path)

/-- The handles produced by one planning call. -/
def handlesOf (ts : Nat) (chunks : List (List FileEntry)) : List (List Char) :=
  (registerChunks ts chunks).map Prod.fst

/-! ### Archive materialization (`GET /zip-chunks/:chunkID`) -/

/-- The custom response body of main.go lines 367-372: the scratch file
path, the handle whose registry entry the delete callback removes, and
the cleanup delay in nanoseconds. -/
structure DelayedDeleteFile where
  path : String
  chunkID : List Char
  delayNs : Int
deriving DecidableEq, Repr

/-- The zip-building loop of the GET handler (main.go lines 206-220):
each registered relative path is opened under the synced root; a path
that fails to open (`readF f = none`) is skipped silently, otherwise a
zip entry named by the relative path receives the file's bytes.
(`zipWriter.Create` can only fail on a closed writer, which cannot
happen here, so it is modelled as succeeding.) -/
def zipEntries (readF : String → Option (List Nat)) (files : List String) :
    List (String × List Nat) :=
  files.filterMap fun f => (readF f).map fun bs => (f, bs)

/-- Outcome of one GET request: HTTP status, the finalized archive
entries (`none` when no archive was built), the registry after the
handler returns, the filesystem actions performed, and the stream
object handed to `c.Stream` (which schedules the deferred cleanup). -/
structure ServeOutcome where
  status : Nat
  archive : Option (List (String × List Nat))
  storeAfter : List (List Char × List String)
  fsOps : List String
  stream : Option DelayedDeleteFile
deriving DecidableEq, Repr

/-- The `GET /zip-chunks/:chunkID` handler (main.go lines 183-240).
`mkdirOk`/`tmpOk` are the outcomes of `os.MkdirAll` and
`os.CreateTemp`, `tmpName` the random name `CreateTemp` produced, and
`readF` the readability oracle for the zip loop.  On a registry miss
the handler returns 404 before touching the filesystem; otherwise it
builds the archive, closes the zip writer, and streams via a
`delayedDeleteFile` with a fixed 3-minute (180000000000 ns) delay. -/
def serveChunk (store : List (List Char × List String)) (key : List Char)
    (mkdirOk tmpOk : Bool) (tmpName : String)
    (readF : String → Option (List Nat)) : ServeOutcome :=
  match alistFind store key with
  | none => ⟨404, none, store, [], none⟩
  | some files =>
      if ¬ mkdirOk then ⟨500, none, store, ["MkdirAll"], none⟩
      else if ¬ tmpOk then ⟨500, none, store, ["MkdirAll", "CreateTemp"], none⟩
      else
        ⟨200, some (zipEntries readF files), store,
          ["MkdirAll", "CreateTemp", "zipWrite"],
          some ⟨tmpName, key, 180000000000⟩⟩

/-- A deferred cleanup registered by `time.AfterFunc` in
`delayedDeleteFile.WriteTo` (main.go lines 388-393). -/
structure Cleanup where
  path : String
  delayNs : Int
  key : List Char
deriving DecidableEq, Repr

/-- `delayedDeleteFile.WriteTo` (main.go lines 378-396): if opening the
scratch file fails the method returns the error without scheduling
anything; otherwise, after `io.Copy` returns — with any byte count `n`
and whether or not it reports an error — exactly one deferred cleanup
is scheduled before the copy result is returned. -/
def writeTo (d : DelayedDeleteFile) (openOk : Bool)
    (copyRes : Nat × Option String) :
    (Nat × Option String) × List Cleanup :=
  if openOk then (copyRes, [⟨d.path, d.delayNs, d.chunkID⟩])
  else ((0, some "open failed"), [])

/-- The timer body scheduled by `WriteTo`: `_ = os.Remove(d.path)`
(a failure for an already-missing file is discarded) followed by
`onDelete`, which under the lock deletes the registry entry (a map
delete of an absent key is a no-op).  Returns `(completedOk, store')`. -/
def cleanupRun (fileExists : Bool) (store : List (List Char × List String))
    (c : Cleanup) : Bool × List (List Char × List String) :=
  let _rmErr : Option String := if fileExists then none else some "ENOENT"
  (true, alistErase store c.key)

/-! ### Expiry janitor (main.go lines 243-291) -/

/-- Per-key keep/drop decision of the registry sweep (main.go lines
252-271): extract the timestamp prefix (`none` = the slice with index
`-1` panics), keep the entry on parse failure (`continue`), otherwise
drop it exactly when `now - ts > maxAge` (all times in nanoseconds). -/
def keepEntry (now maxAge : Int) (k : List Char) : Option Bool :=
  match tsPart k with
  | none => none
  | some p =>
      match parseInt64 p with
      | none => some true
      | some ts => some (decide (¬ (now - (ts : Int) > maxAge)))

/-- The registry after one sweep.  Go map iteration order is
unspecified, but the per-entry decision is independent of the other
entries, so a left-to-right fold over the association list is a
faithful model of the surviving set; `none` models the panic on a key
without `'-'`. -/
def sweepStore (now maxAge : Int) :
    List (List Char × List String) → Option (List (List Char × List String))
  | [] => some []
  | e :: rest =>
      match keepEntry now maxAge e.1 with
      | none => none
      | some true => (sweepStore now maxAge rest).map (e :: ·)
      | some false => sweepStore now maxAge rest

/-- Filesystem operations performed by a janitor tick. -/
inductive FsOp
  | glob (key : List Char)
  | removeFile (path : String)
  | walkDir (dir : String)
deriving DecidableEq, Repr

/-- Events of a janitor tick, in program order. -/
inductive JEvent
  | lockAcquire
  | lockRelease
  | fs (op : FsOp)
  | mapDelete (key : List Char)
  | crash
deriving DecidableEq, Repr

/-- Events emitted while the registry sweep visits one entry:
for an expired entry the map delete, the `filepath.Glob` over
`tempZipDir/<key>-*.zip` and one `os.Remove` per match — all inside the
locked region; `globMatches` is the oracle for the glob results. -/
def entryEvents (now maxAge : Int) (globMatches : List Char → List String)
    (k : List Char) : Option (List JEvent) :=
  match keepEntry now maxAge k with
  | none => none
  | some true => some []
  | some false =>
      some (JEvent.mapDelete k :: JEvent.fs (FsOp.glob k) ::
        (globMatches k).map fun p => JEvent.fs (FsOp.removeFile p))

/-- Event list of the whole registry sweep, with a crash flag for the
malformed-key panic (after which nothing further runs, the lock never
being released). -/
def sweepEvents (now maxAge : Int) (globMatches : List Char → List String) :
    List (List Char × List String) → List JEvent × Bool
  | [] => ([], false)
  | e :: rest =>
      match entryEvents now maxAge globMatches e.1 with
      | none => ([JEvent.crash], true)
      | some evs =>
          let tl := sweepEvents now maxAge globMatches rest
          (evs ++ tl.1, tl.2)

/-- One file seen by the scratch-directory walk: its path, whether its
extension is `.zip`, and its modification time (ns). -/
structure WalkFile where
  path : String
  isZip : Bool
  modTime : Int
deriving DecidableEq, Repr

/-- Events of the filesystem sweep (main.go lines 274-286): the
directory walk itself, then one remove per stale `.zip` file.  It runs
entirely after the registry lock is released. -/
def walkEvents (now maxAge : Int) (walkFiles : List WalkFile) : List JEvent :=
  JEvent.fs (FsOp.walkDir "/tmp/patcher") ::
    walkFiles.filterMap fun w =>
      if w.isZip ∧ now - w.modTime > maxAge then
        some (JEvent.fs (FsOp.removeFile w.path))
      else none

/-- The full event trace of one janitor tick: lock, registry sweep,
unlock, filesystem sweep (the latter two only if no panic occurred). -/
def tickTrace (now maxAge : Int) (globMatches : List Char → List String)
    (store : List (List Char × List String)) (walkFiles : List WalkFile) :
    List JEvent :=
  let sw := sweepEvents now maxAge globMatches store
  JEvent.lockAcquire :: sw.1 ++
    (if sw.2 then [] else JEvent.lockRelease :: walkEvents now maxAge walkFiles)

/-- The filesystem operations of a trace that happen while the registry
lock is held (`depth` = current lock nesting). -/
def lockedFs : List JEvent → Nat → List FsOp
  | [], _ => []
  | JEvent.lockAcquire :: rest, depth => lockedFs rest (depth + 1)
  | JEvent.lockRelease :: rest, depth => lockedFs rest (depth - 1)
  | JEvent.fs op :: rest, depth =>
      if depth > 0 then op :: lockedFs rest depth else lockedFs rest depth
  | JEvent.mapDelete _ :: rest, depth => lockedFs rest depth
  | JEvent.crash :: rest, depth => lockedFs rest depth

/-- The filesystem operations contained in an event list. -/
def fsOpsOf (evs : List JEvent) : List FsOp :=
  evs.filterMap fun e =>
    match e with
    | JEvent.fs op => some op
    | _ => none

/-! ### Rate limiter (main.go lines 34-71) -/

/-- Observable state of one `golang.org/x/time/rate.Limiter` bucket:
current tokens and the time (in seconds, as a rational) of the last
update.  `rate.NewLimiter` leaves the last-event time at the zero time,
so the first advance fills the bucket to its burst; for any time at or
after creation the limiter therefore behaves as if created full. -/
structure RateLimiterGo where
  tokens : Rat
  lastT : Rat
deriving DecidableEq, Repr

/-- `Limiter.Allow` of `golang.org/x/time/rate` for a monotone clock:
advance the bucket by `(t - last) * rateLim`, cap at `burst` (the
library's `if tokens > burst { tokens = burst }`), then consume one
token if at least one is available. -/
def limiterAllow (rateLim burst : Rat) (l : RateLimiterGo) (t : Rat) :
    Bool × RateLimiterGo :=
  let tok0 := l.tokens + (t - l.lastT) * rateLim
  let tok := if burst < tok0 then burst else tok0
  if 1 ≤ tok then (true, ⟨tok - 1, t⟩) else (false, ⟨tok, t⟩)

/-- The bucket parameters of `getVisitor` (main.go line 45):
`rate.Every(time.Minute/10)` is one token per 6 seconds. -/
def serverRate : Rat := 1 / 6

/-- Burst size of the per-visitor bucket. -/
def serverBurst : Rat := 10

/-- A freshly created visitor bucket, observably full (see
`RateLimiterGo`). -/
def newVisitorLimiter (now : Rat) : RateLimiterGo :=
  ⟨serverBurst, now⟩

/-- `getVisitor` (main.go lines 39-49): under the visitors lock, return
the identity's bucket, creating it on first sight. -/
def getVisitor (m : List (String × RateLimiterGo)) (ip : String)
    (now : Rat) : RateLimiterGo × List (String × RateLimiterGo) :=
  match alistFind m ip with
  | some l => (l, m)
  | none => (newVisitorLimiter now, (ip, newVisitorLimiter now) :: m)

/-- Run one identity's bucket over a list of request times, collecting
the admit/reject decisions (`rateLimitMiddleware`, main.go lines 59-71). -/
def runRequests (l : RateLimiterGo) : List Rat → List Bool
  | [] => []
  | t :: ts =>
      let r := limiterAllow serverRate serverBurst l t
      r.1 :: runRequests r.2 ts

/-- The HTTP routes of `main` and whether each is wrapped in
`rateLimitMiddleware`: only `POST /zip-chunks/init` is (main.go line
180); `GET /zip-chunks/:chunkID` is registered without it. -/
inductive Endpoint
  | ghUpdate
  | zipInit
  | zipGet
  | staticFiles
deriving DecidableEq, Repr

/-- Which endpoints the source wraps in `rateLimitMiddleware`. -/
def rateLimited : Endpoint → Bool
  | Endpoint.zipInit => true
  | _ => false

/-! ### Supporting lemmas -/

theorem expandFiles_paths (stat : String → Option StatInfo)
    (paths : List String) :
    (expandFiles stat paths).map FileEntry.path =
      paths.filter fun p =>
        match stat p with
        | some info => !info.isDir
        | none => false := by
  induction paths with
  | nil => rfl
  | cons p rest ih =>
      rcases hs : stat p with _ | info
      · simpa [expandFiles, List.filter_cons, hs] using ih
      · rcases hd : info.isDir
        · simpa [expandFiles, List.filter_cons, hs, hd] using ih
        · simpa [expandFiles, List.filter_cons, hs, hd] using ih

theorem zipEntries_names (readF : String → Option (List Nat))
    (files : List String) :
    (zipEntries readF files).map Prod.fst =
      files.filter fun f => (readF f).isSome := by
  induction files with
  | nil => rfl
  | cons f rest ih =>
      rcases hr : readF f with _ | bs
      · simpa [zipEntries, List.filter_cons, hr] using ih
      · simpa [zipEntries, List.filter_cons, hr] using ih

theorem alistErase_of_find_none {α β : Type} [DecidableEq α]
    (l : List (α × β)) (k : α) (h : alistFind l k = none) :
    alistErase l k = l := by
  induction l with
  | nil => rfl
  | cons e rest ih =>
      simp only [alistFind] at h
      by_cases he : e.1 = k
      · simp [he] at h
      · rw [if_neg he] at h
        simp [alistErase, he] at ih ⊢
        exact ih h

theorem alistErase_idem {α β : Type} [DecidableEq α]
    (l : List (α × β)) (k : α) :
    alistErase (alistErase l k) k = alistErase l k := by
  simp [alistErase, List.filter_filter]

theorem handlesOf_eq (ts : Nat) (chunks : List (List FileEntry)) :
    handlesOf ts chunks = (List.range chunks.length).map (chunkKey ts) := by
  unfold handlesOf registerChunks
  rw [List.map_map]
  have : (Prod.fst ∘ fun p : Nat × List FileEntry =>
      (chunkKey ts p.1, p.2.map FileEntry.path)) =
      (chunkKey ts) ∘ Prod.fst := rfl
  rw [this, ← List.map_map, List.map_fst_zip]
  simp

theorem keepEntry_eq (now maxAge : Int) (k p : List Char)
    (hp : tsPart k = some p) :
    keepEntry now maxAge k =
      match parseInt64 p with
      | none => some true
      | some ts => some (decide (¬ (now - (ts : Int) > maxAge))) := by
  unfold keepEntry
  rw [hp]

theorem keepEntry_isSome (now maxAge : Int) (k : List Char)
    (h : '-' ∈ k) : ∃ b, keepEntry now maxAge k = some b := by
  have hts : tsPart k = some (k.takeWhile fun c => c ≠ '-') := by
    unfold tsPart
    rw [if_pos h]
  rw [keepEntry_eq now maxAge k _ hts]
  rcases hpi : parseInt64 (k.takeWhile fun c => c ≠ '-') with _ | ts
  · exact ⟨true, rfl⟩
  · exact ⟨_, rfl⟩

theorem keepEntry_of_parse_fail (now maxAge : Int) (k p : List Char)
    (hp : tsPart k = some p) (hfail : parseInt64 p = none) :
    keepEntry now maxAge k = some true := by
  rw [keepEntry_eq now maxAge k p hp, hfail]

theorem sweepStore_total (now maxAge : Int)
    (store : List (List Char × List String))
    (hwf : ∀ e ∈ store, '-' ∈ e.1) :
    ∃ s', sweepStore now maxAge store = some s' := by
  induction store with
  | nil => exact ⟨[], rfl⟩
  | cons e rest ih =>
      obtain ⟨b, hb⟩ := keepEntry_isSome now maxAge e.1
        (hwf e (List.mem_cons_self e rest))
      obtain ⟨s', hs'⟩ := ih fun d hd => hwf d (List.mem_cons_of_mem e hd)
      rcases b
      · exact ⟨s', by simp [sweepStore, hb, hs']⟩
      · exact ⟨e :: s', by simp [sweepStore, hb, hs']⟩

/-- No event of the registry sweep is a lock operation. -/
def NoLockEv (evs : List JEvent) : Prop :=
  ∀ e ∈ evs, e ≠ JEvent.lockAcquire ∧ e ≠ JEvent.lockRelease

theorem entryEvents_noLock (now maxAge : Int)
    (gm : List Char → List String) (k : List Char) (evs : List JEvent)
    (h : entryEvents now maxAge gm k = some evs) : NoLockEv evs := by
  unfold entryEvents at h
  rcases hk : keepEntry now maxAge k with _ | b
  · rw [hk] at h; exact absurd h (by simp)
  · rw [hk] at h
    rcases b
    · simp only [Option.some_inj] at h
      subst h
      intro e he
      simp only [List.mem_cons] at he
      rcases he with rfl | he
      · exact ⟨by simp, by simp⟩
      rcases he with rfl | he
      · exact ⟨by simp, by simp⟩
      · obtain ⟨p, _, rfl⟩ := List.mem_map.mp he
        exact ⟨by simp, by simp⟩
    · simp only [Option.some_inj] at h
      subst h
      intro e he
      simp at he

theorem sweepEvents_noLock (now maxAge : Int)
    (gm : List Char → List String)
    (store : List (List Char × List String)) :
    NoLockEv (sweepEvents now maxAge gm store).1 := by
  induction store with
  | nil => intro e he; simp [sweepEvents] at he
  | cons ent rest ih =>
      intro e he
      simp only [sweepEvents] at he
      rcases hev : entryEvents now maxAge gm ent.1 with _ | evs
      · rw [hev] at he
        simp at he
        subst he
        exact ⟨by simp, by simp⟩
      · rw [hev] at he
        simp only [List.mem_append] at he
        rcases he with he | he
        · exact entryEvents_noLock now maxAge gm ent.1 evs hev e he
        · exact ih e he

theorem lockedFs_append_noLock (evs rest : List JEvent)
    (h : NoLockEv evs) :
    lockedFs (evs ++ rest) 1 = fsOpsOf evs ++ lockedFs rest 1 := by
  induction evs with
  | nil => simp [fsOpsOf]
  | cons e tl ih =>
      have htl := ih fun d hd => h d (List.mem_cons_of_mem e hd)
      have he := h e (List.mem_cons_self e tl)
      rcases e with _ | _ | op | k | _
      · exact absurd rfl he.1
      · exact absurd rfl he.2
      · simp [lockedFs, fsOpsOf, htl]
      · simpa [lockedFs, fsOpsOf] using htl
      · simpa [lockedFs, fsOpsOf] using htl

theorem lockedFs_zero_noAcquire (evs : List JEvent)
    (h : ∀ e ∈ evs, e ≠ JEvent.lockAcquire) :
    lockedFs evs 0 = [] := by
  induction evs with
  | nil => rfl
  | cons e tl ih =>
      have htl := ih fun d hd => h d (List.mem_cons_of_mem e hd)
      have he := h e (List.mem_cons_self e tl)
      rcases e with _ | _ | op | k | _
      · exact absurd rfl he
      · simpa [lockedFs] using htl
      · simpa [lockedFs] using htl
      · simpa [lockedFs] using htl
      · simpa [lockedFs] using htl

theorem walkEvents_noAcquire (now maxAge : Int) (walkFiles : List WalkFile) :
    ∀ e ∈ walkEvents now maxAge walkFiles, e ≠ JEvent.lockAcquire := by
  intro e he
  simp only [walkEvents, List.mem_cons] at he
  rcases he with rfl | he
  · simp
  · obtain ⟨w, _, hw⟩ := List.mem_filterMap.mp he
    by_cases hcond : w.isZip = true ∧ now - w.modTime > maxAge
    · rw [if_pos hcond] at hw
      cases hw
      simp
    · rw [if_neg hcond] at hw
      exact absurd hw (by simp)

/-! ### Claim theorems -/

/-- C1 counterexample: with files of sizes `2^63 - 1` and `1` and
budget `30`, the `int64` guard `currentSize+f.Size` wraps to `-2^63`,
so the program emits the single two-file chunk `[a, b]`, which neither
fits the budget nor is a singleton — the claimed invariant fails as
stated for arbitrary input lists. -/
theorem claim_C1_cex :
    chunkBySize [⟨"a", 2 ^ 63 - 1⟩, ⟨"b", 1⟩] 30 =
      [[⟨"a", 2 ^ 63 - 1⟩, ⟨"b", 1⟩]] ∧
    ¬ (chunkSum [⟨"a", 2 ^ 63 - 1⟩, ⟨"b", 1⟩] ≤ 30 ∨
        ∃ f, [(⟨"a", 2 ^ 63 - 1⟩ : FileEntry), ⟨"b", 1⟩] = [f] ∧
          30 < f.size) := by
  refine ⟨by decide, ?_⟩
  intro h
  rcases h with h | ⟨f, heq, _⟩
  · exact absurd h (by decide)
  · simp at heq

/-- C1 amended: for every input file list with non-negative sizes whose
total stays below `2^63` (so no `int64` addition in the running sum
overflows) and every positive budget, every chunk produced by
`chunkBySize` either has total size at most the budget or is a
singleton whose one file exceeds the budget by itself; and since the
chunks concatenate back to the input, no file (oversized or not) is
ever split across chunks or dropped. -/
theorem claim_C1 (files : List FileEntry) (budget : Int)
    (_hpos : 0 < budget)
    (hnn : ∀ f ∈ files, 0 ≤ f.size)
    (htot : chunkSum files < 2 ^ 63) :
    (∀ c ∈ chunkBySize files budget,
        chunkSum c ≤ budget ∨ ∃ f, c = [f] ∧ budget < f.size) ∧
    (chunkBySize files budget).flatten = files :=
  ⟨chunkBySize_ok files budget hnn htot, chunkBySize_flatten files budget⟩

theorem claim_C1_witness :
    ((0 : Int) < 30 ∧ (∀ f ∈ [(⟨"a", 35⟩ : FileEntry), ⟨"b", 2⟩], 0 ≤ f.size) ∧
      chunkSum [(⟨"a", 35⟩ : FileEntry), ⟨"b", 2⟩] < 2 ^ 63) ∧
    ((∀ c ∈ chunkBySize [⟨"a", 35⟩, ⟨"b", 2⟩] 30,
        chunkSum c ≤ 30 ∨ ∃ f, c = [f] ∧ 30 < f.size) ∧
      (chunkBySize [⟨"a", 35⟩, ⟨"b", 2⟩] 30).flatten = [⟨"a", 35⟩, ⟨"b", 2⟩]) :=
  ⟨⟨by decide, by decide, by decide⟩,
    claim_C1 [⟨"a", 35⟩, ⟨"b", 2⟩] 30 (by decide) (by decide) (by decide)⟩

/-- C2: the chunks concatenate to exactly the filtered input list
(each existing non-directory request appears once, in original order),
the filtered list keeps exactly the requested paths that stat as
existing non-directories, and an empty filtered list produces zero
chunks, zero registry entries and zero handles. -/
theorem claim_C2 (stat : String → Option StatInfo) (paths : List String)
    (budget : Int) (ts : Nat) :
    (chunkBySize (expandFiles stat paths) budget).flatten =
      expandFiles stat paths ∧
    (expandFiles stat paths).map FileEntry.path =
      (paths.filter fun p =>
        match stat p with
        | some info => !info.isDir
        | none => false) ∧
    chunkBySize ([] : List FileEntry) budget = [] ∧
    registerChunks ts [] = [] ∧
    handlesOf ts [] = [] :=
  ⟨chunkBySize_flatten _ budget, expandFiles_paths stat paths, rfl, rfl, rfl⟩

/-- C3: whenever the archive stream runs (the scratch file opened),
`WriteTo` schedules exactly one deferred cleanup — for every byte count
and whether or not `io.Copy` reports an error — carrying the stream's
delay; the GET handler creates that stream with the fixed 3-minute
(180000000000 ns) delay; running the cleanup succeeds on a missing
scratch file and on an already-removed registry entry (leaving the
registry unchanged), and registry deletion is idempotent. -/
theorem claim_C3 (d : DelayedDeleteFile) (n : Nat) (copyErr : Option String)
    (store2 : List (List Char × List String)) (key2 : List Char)
    (files2 : List String) (tmpName : String)
    (readF : String → Option (List Nat))
    (h2 : alistFind store2 key2 = some files2)
    (store store' : List (List Char × List String)) (c : Cleanup)
    (fileExists : Bool)
    (hgone : alistFind store c.key = none) :
    writeTo d true (n, copyErr) =
      ((n, copyErr), [⟨d.path, d.delayNs, d.chunkID⟩]) ∧
    (serveChunk store2 key2 true true tmpName readF).stream =
      some ⟨tmpName, key2, 180000000000⟩ ∧
    cleanupRun fileExists store c = (true, store) ∧
    alistErase (alistErase store' c.key) c.key = alistErase store' c.key := by
  refine ⟨rfl, ?_, ?_, alistErase_idem store' c.key⟩
  · simp [serveChunk, h2]
  · simp [cleanupRun, alistErase_of_find_none store c.key hgone]

theorem claim_C3_witness :
    writeTo ⟨"p", ['k'], 7⟩ true (3, some "connection reset") =
      ((3, some "connection reset"), [⟨"p", 7, ['k']⟩]) ∧
    (serveChunk [(['k'], ["f"])] ['k'] true true "t" fun _ => none).stream =
      some ⟨"t", ['k'], 180000000000⟩ ∧
    cleanupRun false [] ⟨"x", 9, ['z']⟩ = (true, []) ∧
    alistErase (alistErase [(['q'], ["g"])] ['z']) ['z'] =
      alistErase [(['q'], ["g"])] ['z'] :=
  claim_C3 ⟨"p", ['k'], 7⟩ 3 (some "connection reset")
    [(['k'], ["f"])] ['k'] ["f"] "t" (fun _ => none) (by decide)
    [] [(['q'], ["g"])] ⟨"x", 9, ['z']⟩ false (by decide)

/-- C5: a GET for a handle absent from the registry returns 404 with no
archive, no registry mutation, no filesystem action and no scheduled
stream/cleanup. -/
theorem claim_C5 (store : List (List Char × List String)) (key : List Char)
    (mkdirOk tmpOk : Bool) (tmpName : String)
    (readF : String → Option (List Nat))
    (h : alistFind store key = none) :
    serveChunk store key mkdirOk tmpOk tmpName readF =
      ⟨404, none, store, [], none⟩ := by
  simp [serveChunk, h]

theorem claim_C5_witness :
    serveChunk [(['a'], ["x"])] ['b'] true true "t" (fun _ => some []) =
      ⟨404, none, [(['a'], ["x"])], [], none⟩ :=
  claim_C5 [(['a'], ["x"])] ['b'] true true "t" (fun _ => some []) (by decide)

/-- C8: a GET for a registered handle (with scratch dir and temp file
available) responds 200 with a finalized archive whose entries are
exactly the registered relative paths that were readable at build time,
in order; unreadable files are skipped without surfacing any error. -/
theorem claim_C8 (store : List (List Char × List String)) (key : List Char)
    (files : List String) (tmpName : String)
    (readF : String → Option (List Nat))
    (h : alistFind store key = some files) :
    serveChunk store key true true tmpName readF =
      ⟨200, some (zipEntries readF files), store,
        ["MkdirAll", "CreateTemp", "zipWrite"],
        some ⟨tmpName, key, 180000000000⟩⟩ ∧
    (zipEntries readF files).map Prod.fst =
      files.filter fun f => (readF f).isSome := by
  refine ⟨?_, zipEntries_names readF files⟩
  simp [serveChunk, h]

theorem claim_C8_witness :
    serveChunk [(['k'], ["good", "bad"])] ['k'] true true "t"
        (fun s => if s = "good" then some [1, 2] else none) =
      ⟨200, some [("good", [1, 2])], [(['k'], ["good", "bad"])],
        ["MkdirAll", "CreateTemp", "zipWrite"],
        some ⟨"t", ['k'], 180000000000⟩⟩ ∧
    (zipEntries (fun s => if s = "good" then some [1, 2] else none)
        ["good", "bad"]).map Prod.fst = ["good"] := by
  have h := claim_C8 [(['k'], ["good", "bad"])] ['k'] ["good", "bad"] "t"
    (fun s => if s = "good" then some [1, 2] else none) (by decide)
  exact ⟨h.1.trans (by decide), h.2.trans (by decide)⟩

/-- C4 counterexample: on a registry holding one expired entry, a
janitor tick performs filesystem operations — the glob for the entry's
scratch zips and the removal of a match — while the registry lock is
held, so the lock IS held during file I/O. -/
theorem claim_C4_cex :
    lockedFs (tickTrace 2 1 (fun _ => ["stale.zip"])
        [(chunkKey 0 0, ["a"])] [⟨"w.zip", true, 0⟩]) 0 =
      [FsOp.glob (chunkKey 0 0), FsOp.removeFile "stale.zip"] ∧
    lockedFs (tickTrace 2 1 (fun _ => ["stale.zip"])
        [(chunkKey 0 0, ["a"])] [⟨"w.zip", true, 0⟩]) 0 ≠ [] := by
  constructor <;> decide

/-- C4 amended: in every janitor tick the filesystem operations
performed under the registry lock are exactly those of the registry
sweep (the glob-and-delete for each expired entry); the filesystem
sweep's walk and removals always run after the lock is released. -/
theorem claim_C4_amended (now maxAge : Int) (gm : List Char → List String)
    (store : List (List Char × List String)) (walkFiles : List WalkFile) :
    lockedFs (tickTrace now maxAge gm store walkFiles) 0 =
      fsOpsOf (sweepEvents now maxAge gm store).1 := by
  have hnl := sweepEvents_noLock now maxAge gm store
  unfold tickTrace
  simp only [lockedFs, Nat.zero_add]
  rcases hcr : (sweepEvents now maxAge gm store).2 with _ | _
  · simp only [hcr, Bool.false_eq_true, if_false, List.append_eq]
    rw [lockedFs_append_noLock _ _ hnl,
      show lockedFs (JEvent.lockRelease :: walkEvents now maxAge walkFiles) 1 =
        lockedFs (walkEvents now maxAge walkFiles) 0 from rfl,
      lockedFs_zero_noAcquire _ (walkEvents_noAcquire now maxAge walkFiles)]
    simp
  · simp only [hcr, if_true, List.append_eq]
    rw [lockedFs_append_noLock _ _ hnl]
    simp [lockedFs]

/-- C6: every handle of a planning call is `<timestamp>-<index>`; all
handles of one call share the timestamp prefix and differ in index
(no duplicates), and calls with different timestamps produce disjoint
handle sets. -/
theorem claim_C6 (ts1 ts2 : Nat) (chunks1 chunks2 : List (List FileEntry))
    (hne : ts1 ≠ ts2) :
    (∀ k ∈ handlesOf ts1 chunks1, ∃ i, i < chunks1.length ∧
        k = chunkKey ts1 i ∧ tsPart k = some (formatNat ts1)) ∧
    (handlesOf ts1 chunks1).Nodup ∧
    (∀ k ∈ handlesOf ts1 chunks1, k ∉ handlesOf ts2 chunks2) := by
  simp only [handlesOf_eq]
  refine ⟨?_, ?_, ?_⟩
  · intro k hk
    obtain ⟨i, hi, rfl⟩ := List.mem_map.mp hk
    exact ⟨i, List.mem_range.mp hi, rfl, tsPart_chunkKey ts1 i⟩
  · refine List.Nodup.map ?_ (List.nodup_range _)
    intro a b hab
    exact (chunkKey_inj ts1 a ts1 b hab).2
  · intro k hk hk2
    obtain ⟨i, _, rfl⟩ := List.mem_map.mp hk
    obtain ⟨j, _, hj⟩ := List.mem_map.mp hk2
    exact hne (chunkKey_inj ts2 j ts1 i hj).1.symm

theorem claim_C6_witness :
    (∀ k ∈ handlesOf 0 [[⟨"a", 1⟩]], ∃ i, i < 1 ∧
        k = chunkKey 0 i ∧ tsPart k = some (formatNat 0)) ∧
    (handlesOf 0 [[⟨"a", 1⟩]]).Nodup ∧
    (∀ k ∈ handlesOf 0 [[⟨"a", 1⟩]], k ∉ handlesOf 1 [[⟨"b", 2⟩]]) := by
  have h := claim_C6 0 1 [[⟨"a", 1⟩]] [[⟨"b", 2⟩]] (by decide)
  simpa using h

/-- C7: a registry entry whose timestamp prefix exists but fails to
parse as an integer survives a janitor sweep unchanged, and the sweep
still completes over the remaining entries. -/
theorem claim_C7 (now maxAge : Int)
    (store : List (List Char × List String)) (k : List Char)
    (files : List String) (p : List Char)
    (hmem : (k, files) ∈ store)
    (hp : tsPart k = some p)
    (hfail : parseInt64 p = none)
    (hwf : ∀ e ∈ store, '-' ∈ e.1) :
    ∃ store', sweepStore now maxAge store = some store' ∧
      (k, files) ∈ store' := by
  induction store with
  | nil => simp at hmem
  | cons e rest ih =>
      have hkeep : keepEntry now maxAge k = some true :=
        keepEntry_of_parse_fail now maxAge k p hp hfail
      rcases List.mem_cons.mp hmem with heq | hmem'
      · obtain ⟨s', hs'⟩ := sweepStore_total now maxAge rest
          fun d hd => hwf d (List.mem_cons_of_mem e hd)
        refine ⟨(k, files) :: s', ?_, List.mem_cons_self _ _⟩
        rw [← heq]
        simp [sweepStore, hkeep, hs']
      · obtain ⟨s', hs', hmem''⟩ := ih hmem'
          fun d hd => hwf d (List.mem_cons_of_mem e hd)
        obtain ⟨b, hb⟩ := keepEntry_isSome now maxAge e.1
          (hwf e (List.mem_cons_self e rest))
        rcases b
        · exact ⟨s', by simp [sweepStore, hb, hs'], hmem''⟩
        · exact ⟨e :: s', by simp [sweepStore, hb, hs'],
            List.mem_cons_of_mem e hmem''⟩

theorem claim_C7_witness :
    ∃ store', sweepStore 0 0
        [(['a', '-', '1'], ["f"]), (['0', '-', '0'], [])] = some store' ∧
      (['a', '-', '1'], ["f"]) ∈ store' :=
  claim_C7 0 0 [(['a', '-', '1'], ["f"]), (['0', '-', '0'], [])]
    ['a', '-', '1'] ["f"] ['a'] (by decide) (by decide) (by decide) (by decide)

/-- C9 counterexample: a fresh bucket admits 10 immediate requests and
then an 11th at t = 6 s — all 11 inside one 1-minute window — because a
token refills after 6 seconds; so it is not the case that within any
1-minute window only 10 requests are admitted with the 11th rejected. -/
theorem claim_C9_cex :
    runRequests (newVisitorLimiter 0) (List.replicate 10 0 ++ [6]) =
      List.replicate 11 true ∧
    ∀ t ∈ List.replicate 10 (0 : Rat) ++ [6], 0 ≤ t ∧ t ≤ 60 := by
  constructor
  · norm_num [runRequests, limiterAllow, newVisitorLimiter, serverRate,
      serverBurst, List.replicate]
  · intro t ht
    simp [List.replicate] at ht
    rcases ht with rfl | rfl <;> norm_num

/-- C9 amended: the limiter lazily creates exactly one bucket per
identity, full at 10 tokens (and a repeat lookup returns that same
bucket without creating another); from a full bucket 10 back-to-back
requests are admitted and the 11th back-to-back request is rejected;
after the 6-second refill the next request is admitted again; and only
the planning endpoint is rate-limited, not the archive GET. -/
theorem claim_C9_amended (m : List (String × RateLimiterGo)) (ip : String)
    (now now' : Rat) (h : alistFind m ip = none) :
    getVisitor m ip now =
      (newVisitorLimiter now, (ip, newVisitorLimiter now) :: m) ∧
    getVisitor ((ip, newVisitorLimiter now) :: m) ip now' =
      (newVisitorLimiter now, (ip, newVisitorLimiter now) :: m) ∧
    newVisitorLimiter now = ⟨10, now⟩ ∧
    runRequests (newVisitorLimiter 0) (List.replicate 11 0) =
      List.replicate 10 true ++ [false] ∧
    runRequests (newVisitorLimiter 0) (List.replicate 11 0 ++ [6]) =
      List.replicate 10 true ++ [false, true] ∧
    rateLimited Endpoint.zipInit = true ∧
    rateLimited Endpoint.zipGet = false := by
  refine ⟨?_, ?_, rfl, ?_, ?_, rfl, rfl⟩
  · simp [getVisitor, h]
  · simp [getVisitor, alistFind]
  · norm_num [runRequests, limiterAllow, newVisitorLimiter, serverRate,
      serverBurst, List.replicate]
  · norm_num [runRequests, limiterAllow, newVisitorLimiter, serverRate,
      serverBurst, List.replicate]

theorem claim_C9_witness :
    getVisitor [] "203.0.113.7" 0 =
      (newVisitorLimiter 0, [("203.0.113.7", newVisitorLimiter 0)]) ∧
    getVisitor [("203.0.113.7", newVisitorLimiter 0)] "203.0.113.7" 30 =
      (newVisitorLimiter 0, [("203.0.113.7", newVisitorLimiter 0)]) ∧
    newVisitorLimiter 0 = ⟨10, 0⟩ ∧
    runRequests (newVisitorLimiter 0) (List.replicate 11 0) =
      List.replicate 10 true ++ [false] ∧
    runRequests (newVisitorLimiter 0) (List.replicate 11 0 ++ [6]) =
      List.replicate 10 true ++ [false, true] ∧
    rateLimited Endpoint.zipInit = true ∧
    rateLimited Endpoint.zipGet = false :=
  claim_C9_amended [] "203.0.113.7" 0 30 rfl

/-- C10: every key the init handler can insert has the form
`<decimal ts>-<decimal index>`, so the janitor's prefix slice is always
defined (a `'-'` is present) and the extracted prefix parses back to
the registering timestamp. -/
theorem claim_C10 (ts : Nat) (chunks : List (List FileEntry))
    (hts : ts < 2 ^ 63) :
    ∀ k ∈ handlesOf ts chunks, ∃ p, tsPart k = some p ∧
      parseInt64 p = some ts := by
  intro k hk
  rw [handlesOf_eq] at hk
  obtain ⟨i, _, rfl⟩ := List.mem_map.mp hk
  exact ⟨formatNat ts, tsPart_chunkKey ts i, parseInt64_formatNat ts hts⟩

theorem claim_C10_witness :
    (0 : Nat) < 2 ^ 63 ∧
    ∀ k ∈ handlesOf 0 [[⟨"a", 1⟩]], ∃ p, tsPart k = some p ∧
      parseInt64 p = some 0 :=
  ⟨by decide, claim_C10 0 [[⟨"a", 1⟩]] (by decide)⟩

end Patcher
